import Mathlib

/-!
Verification development for the age-gui batch file-processing orchestrator
(src/age_gui.py).  Python strings are modelled as lists of characters
(`Str`), the filesystem as the list of paths that currently exist (`FS`),
and the external engine process as an oracle supplied by the environment.
Python string operations used by the source (lower, strip, endswith,
removesuffix, os.path.splitext, os.path.basename, os.path.dirname,
os.path.join, decimal formatting in f-strings) are embedded below.  The
model restricts itself to ASCII for case conversion and to ASCII digits
for the regex digit class; no claim exercises the non-ASCII behaviour.
-/

namespace AgeGui

/-- A Python string, modelled as its list of characters. -/
abbrev Str := List Char

/-- The filesystem: the list of paths that exist on disk. -/
abbrev FS := List Str

/-- Decimal digit character, as produced by Python decimal formatting
(only ever applied to values below 10). -/
def digitChar (d : Nat) : Char := Char.ofNat (48 + d)

/-- Fuel-driven decimal rendering of a natural number, least significant
digit produced last; the fuel argument only serves structural recursion. -/
def natReprAux : Nat → Nat → Str
  | 0, _ => []
  | fuel + 1, n =>
    if n < 10 then [digitChar n]
    else natReprAux fuel (n / 10) ++ [digitChar (n % 10)]

/-- Decimal rendering of a natural number, as Python f-strings produce it. -/
def natRepr (n : Nat) : Str := natReprAux (n + 1) n

/-- Decimal rendering of an integer, as Python f-strings produce it
(process return codes can be negative on Unix). -/
def intRepr (n : Int) : Str :=
  if n < 0 then '-' :: natRepr n.natAbs else natRepr n.toNat

/-- Value of a list of decimal digit characters, as Python int() computes it. -/
def digitsToNat (l : Str) : Nat := l.foldl (fun acc c => acc * 10 + (c.toNat - 48)) 0

/-- Python str.strip: remove leading and trailing whitespace. -/
def stripChars (s : Str) : Str :=
  ((s.dropWhile Char.isWhitespace).reverse.dropWhile Char.isWhitespace).reverse

/-- Python str.lower, on the ASCII subset the program manipulates. -/
def pyLower (s : Str) : Str := s.map Char.toLower

/-- Python str.endswith. -/
def endsWith (s suffix : Str) : Bool := suffix.isSuffixOf s

/-- Python str.removesuffix: drops the suffix only on an exact match. -/
def removesuffix (s suffix : Str) : Str :=
  if !suffix.isEmpty && suffix.isSuffixOf s then s.take (s.length - suffix.length) else s

/-- Python os.path.basename: everything after the last slash. -/
def basename (p : Str) : Str := (p.reverse.takeWhile (fun c => c != '/')).reverse

/-- Head of the path including the trailing slash, if any. -/
def dirnameRaw (p : Str) : Str := p.take (p.length - (basename p).length)

/-- Python os.path.dirname: the head of the path, with trailing slashes
stripped unless the head consists only of slashes. -/
def dirname (p : Str) : Str :=
  let h := dirnameRaw p
  if h.all (fun c => c == '/') then h
  else (h.reverse.dropWhile (fun c => c == '/')).reverse

/-- Python os.path.join for the shapes the program produces: the second
component is never absolute. -/
def joinPath (d n : Str) : Str :=
  if d = [] then n
  else if d.getLast? = some '/' then d ++ n
  else d ++ '/' :: n

/-- Python os.path.splitext: split at the last dot of the name, unless
every character before that dot is itself a dot (leading-dot files). -/
def splitext (p : Str) : Str × Str :=
  match p.reverse.findIdx? (fun c => c == '.') with
  | none => (p, [])
  | some r =>
    let i := p.length - 1 - r
    if (p.take i).any (fun c => c != '.') then (p.take i, p.drop i) else (p, [])

/-- The encryption extension ".age". -/
def ageExt : Str := (r".age").data

/-- The fallback decrypt suffix ".decrypted". -/
def decryptedExt : Str := (r".decrypted").data

/-- True when the path, lowercased, ends with the encryption extension
(src line: input_path.lower().endswith(".age")). -/
def isAge (p : Str) : Bool := endsWith (pyLower p) ageExt

/- =====================  Key Material Validator  ===================== -/

/-- The two key classifications the GUI requests; the Python code passes
the strings "public" and "private". -/
inductive KeyTy
  | pub
  | priv
deriving DecidableEq

/-- Recipient key prefix checked for public keys. -/
def pubPrefix : Str := (r"age1").data

/-- Identity key prefix checked for private keys. -/
def privPrefix : Str := (r"AGE-SECRET-KEY-").data

/-- The stripped non-empty non-comment lines of a key file, in order
(src AgeGUI._validate_key_file, the list comprehension). -/
def keptLines (ls : List Str) : List Str :=
  (ls.map stripChars).filter (fun l => !l.isEmpty && !(['#'].isPrefixOf l))

/-- Prefix a first remaining line must carry for the required type. -/
def requiredPrefix : KeyTy → Str
  | .pub => pubPrefix
  | .priv => privPrefix

/-- Embedding of AgeGUI._validate_key_file.  The file content is given as
the list of its lines (without trailing newlines, which strip removes
anyway); none models an unreadable file, for which the Python except
clause returns False. -/
def validateKeyFile (content : Option (List Str)) (keyType : KeyTy) : Bool :=
  match content with
  | none => false
  | some ls =>
    match keptLines ls with
    | [] => false
    | first :: _ => (requiredPrefix keyType).isPrefixOf first

/- =====================  Drop handler decision  ===================== -/

/-- Outcome of the batch-level checks in AgeGUI._on_files_dropped, applied
to the recursively collected file list.  Only the two Ready outcomes lead
to a worker being started (directly or after keys are supplied); the two
error outcomes set the error banner and return with no worker and no
engine invocation. -/
inductive DropDecision
  | noFiles
  | mixed
  | decryptReady (files : List Str)
  | encryptReady (files : List Str)
deriving DecidableEq

/-- Embedding of the mode-determination prefix of AgeGUI._on_files_dropped
(src lines 728-747), taking the already collected file list. -/
def onFilesDropped (collected : List Str) : DropDecision :=
  if collected = [] then .noFiles
  else if collected.any isAge && !collected.all isAge then .mixed
  else if collected.any isAge then .decryptReady collected
  else .encryptReady collected

/- =====================  Unique Path Resolver  ===================== -/

/-- Parse a trailing disambiguator of the form space, open paren, one or
more ASCII digits, close paren, at the end of the name: the regex
search for a space-parenthesised number at the end of the name in
AgeWorker._find_unique_filename.  Returns the name without the
disambiguator together with the parsed number. -/
def parseCounter (name : Str) : Option (Str × Nat) :=
  match name.reverse with
  | [] => none
  | c :: rest =>
    if c = ')' then
      let ds := rest.takeWhile Char.isDigit
      if ds = [] then none
      else
        match rest.drop ds.length with
        | o :: sp :: rest2 =>
          if o = '(' ∧ sp = ' ' then some (rest2.reverse, digitsToNat ds.reverse)
          else none
        | _ => none
    else none

/-- The probed file name: base, space, parenthesised counter, extension
(the f-string in AgeWorker._find_unique_filename). -/
def candName (base ext : Str) (k : Nat) : Str :=
  base ++ (r" (").data ++ natRepr k ++ [')'] ++ ext

/-- The while-loop of AgeWorker._find_unique_filename, with explicit fuel:
starting at counter k, return the first probed path that does not exist.
The fuel is immaterial as long as it exceeds the number of existing
files (see probe_isSome below). -/
def probe (fs : FS) (dir base ext : Str) : Nat → Nat → Option Str
  | 0, _ => none
  | fuel + 1, k =>
    if joinPath dir (candName base ext k) ∈ fs then probe fs dir base ext fuel (k + 1)
    else some (joinPath dir (candName base ext k))

/-- Directory, base name, extension and starting counter that
AgeWorker._find_unique_filename derives from the desired path. -/
def parseBase (path : Str) : Str × Str × Str × Nat :=
  let d := dirname path
  let fn := basename path
  let (name, ext) := splitext fn
  match parseCounter name with
  | some (b, n) => (d, b, ext, n + 1)
  | none => (d, name, ext, 1)

/-- The k-th probed candidate path for a desired path. -/
def candOf (path : Str) (k : Nat) : Str :=
  let (d, b, e, _) := parseBase path
  joinPath d (candName b e k)

/-- The counter the probing starts from for a desired path. -/
def startOf (path : Str) : Nat := (parseBase path).2.2.2

/-- Embedding of AgeWorker._find_unique_filename.  The default in getD is
never reached: probing with fuel larger than the number of existing
files always finds a free candidate (probe_isSome). -/
def find_unique_filename (fs : FS) (path : Str) : Str :=
  if path ∈ fs then
    let (d, b, e, s) := parseBase path
    (probe fs d b e (fs.length + 1) s).getD path
  else path


/- =====================  Batch Runner (AgeWorker.run)  ===================== -/

/-- Operation mode of the worker. -/
inductive Mode
  | encrypt
  | decrypt
deriving DecidableEq

/-- What the spawned engine process does, supplied by the environment for
each file index: Popen itself may raise, communicate may raise
TimeoutExpired after 300 seconds, or the process exits with a code and
stderr text.  The wrote flag records whether the engine created its
output file (the .age output for encrypt, the ephemeral temp output for
decrypt) before exiting or being killed. -/
inductive EngineBehavior
  | spawnFail (msg : Str)
  | timeout (wrote : Bool)
  | exits (code : Int) (stderr : Str) (wrote : Bool)

/-- Per-file outcome, the FileOutcome of the specification.  The timedOut
constructor corresponds to the fixed-diagnostic exception raised from
the TimeoutExpired handler; success carries the recorded final output
path for decrypt (none for encrypt, whose engine writes the final path
itself). -/
inductive FileOutcome
  | success (outPath : Option Str)
  | failed (reason : Str)
  | timedOut (reason : Str)
deriving DecidableEq

/-- True exactly for the success constructor. -/
def FileOutcome.isSuccess : FileOutcome → Bool
  | .success _ => true
  | _ => false

/-- Observable events of a run: the process_starting signal, the kill and
output drain performed by the timeout handler, the os.rename of the
decrypt temp output (tgtExisted records whether the rename target
existed at that moment), the error signal, the progress_update signal
and the final finished signal. -/
inductive Event
  | starting (name : Str)
  | killed
  | renamed (src tgt : Str) (tgtExisted : Bool)
  | errorEmit (name msg : Str)
  | progress (q : ℚ)
  | finished (succ total : Nat) (needsClear : Bool)
deriving DecidableEq

/-- Static data of one worker run: mode, the ordered input files and the
key paths.  The argument vector handed to the engine is not modelled;
no claim concerns its exact contents. -/
structure Cfg where
  mode : Mode
  files : List Str
  keys : List Str

/-- The environment: engine behaviour per file index, readable key-file
contents (none models a file whose open raises), the working directory
and the process id used in temp-file names. -/
structure Env where
  engine : Nat → EngineBehavior
  keyLines : Str → Option (List Str)
  cwd : Str
  pid : Nat

/-- Create a file (open for writing, or an engine writing its output); a
path already present stays present. -/
def touch (fs : FS) (p : Str) : FS := if p ∈ fs then fs else fs ++ [p]

/-- Best-effort os.remove as called in the cleanup block: the rm oracle
says whether the deletion succeeds; a failure is swallowed and leaves
the file in place. -/
def removeFile (rm : Str → Bool) (fs : FS) (p : Str) : FS :=
  if rm p then fs.filter (fun q => q != p) else fs

/-- Python exception value flowing to the per-file except clause; the
isTimeout flag marks the exception raised by the TimeoutExpired
handler. -/
structure Exc where
  isTimeout : Bool
  msg : Str

/-- Fixed diagnostic raised on timeout (src line 254). -/
def msgTimeout : Str :=
  (r"Process timeout (5 minutes limit). Possible age binary hang or pipe issue.").data

/-- Diagnostic when encryption is requested without keys (src line 193). -/
def msgNeedRecipient : Str :=
  (r"Encryption requires at least one recipient public key.").data

/-- Diagnostic when the assembled recipient list is empty (src line 208). -/
def msgNoValidRecipients : Str := (r"No valid recipient public keys provided.").data

/-- Diagnostic when decryption is requested without keys (src line 220). -/
def msgNeedIdentity : Str := (r"Decryption requires at least one identity key.").data

/-- Prefix of the diagnostic for a success exit with missing output
(src line 267); the temp path is appended. -/
def msgNoOutput : Str := (r"Age returned success, but output file not found: ").data

/-- Prefix of the fallback diagnostic for a silent non-zero exit. -/
def msgExitCode : Str := (r"Failed, exit code: ").data

/-- Modelled message of an OSError raised while opening a key file; the
claims never inspect this text. -/
def msgKeyReadFail : Str := (r"could not read key file: ").data

/-- Friendly diagnostic substitutions (src lines 274-281). -/
def subMissingRecipients : Str := (r"missing recipients").data

def subNoMatchingKeys : Str := (r"no matching keys").data

def subEncryptedIdentity : Str := (r"encrypted identity").data

def subNoSecrets : Str := (r"error: no secrets provided to decrypt the file").data

def msgFriendlyMissingRecipients : Str :=
  (r"Encryption failed: Missing public recipient key.").data

def msgFriendlyNoMatching : Str :=
  (r"Decryption failed. Please check the identity keys.").data

def msgFriendlyEncryptedIdentity : Str :=
  (r"Decryption failed: Identity key is encrypted. Please use an unencrypted key.").data

def msgFriendlyNoSecrets : Str :=
  (r"Decryption failed: No identity key provided that matches the file.").data

/-- Python substring membership: the needle occurs contiguously in the
haystack. -/
def containsSub (needle hay : Str) : Bool :=
  (List.range (hay.length + 1)).any (fun s => needle.isPrefixOf (hay.drop s))

/-- Classification of a non-zero engine exit (src lines 270-284): strip
the stderr text, fall back to the exit code when it is empty, and
substitute a friendly message when a known substring occurs in the
lowercased text. -/
def classifyError (stderr : Str) (code : Int) : Str :=
  let e := stripChars stderr
  let detail := if e = [] then msgExitCode ++ intRepr code else e
  let el := pyLower e
  if containsSub subMissingRecipients el then msgFriendlyMissingRecipients
  else if containsSub subNoMatchingKeys el then msgFriendlyNoMatching
  else if containsSub subEncryptedIdentity el then msgFriendlyEncryptedIdentity
  else if containsSub subNoSecrets el then msgFriendlyNoSecrets
  else detail

/-- Name of the ephemeral recipient-list file of iteration i
(src line 196). -/
def recipName (pid i : Nat) : Str :=
  (r".temp_recipients_").data ++ natRepr pid ++ ['_'] ++ natRepr i ++ (r".txt").data

/-- Python or on strings: the left operand unless it is empty (falsy). -/
def dirOr (d cwd : Str) : Str := if d = [] then cwd else d

/-- Full path of the ephemeral recipient-list file of iteration i. -/
def recipPathFor (env : Env) (i : Nat) (input : Str) : Str :=
  joinPath (dirOr (dirname input) env.cwd) (recipName env.pid i)

/-- Intended final output path for decrypt (src line 214): strip the
encryption extension when the lowercased path ends with it (the strip
itself is an exact removesuffix), else append the decrypted suffix. -/
def outputPathBase (input : Str) : Str :=
  if isAge input then removesuffix input ageExt else input ++ decryptedExt

/-- Ephemeral temporary decrypt output path (src line 215). -/
def tDecPath (pid : Nat) (input : Str) : Str :=
  outputPathBase input ++ (r".temp_decrypted_").data ++ natRepr pid

/-- Contribution of one key file to the recipient list (src lines
200-203): drop lines whose stripped form starts with the comment
marker, join the remaining raw lines and strip the result. -/
def perKeyWrite (lines : List Str) : Str :=
  let c := stripChars
    (((lines.filter (fun l => !(['#'].isPrefixOf (stripChars l)))).map
        (fun l => l ++ ['\n'])).flatten)
  if c = [] then [] else c ++ ['\n']

/-- Assembly of the recipient-list file content (src lines 197-203):
skip key paths that do not exist, raise on an unreadable key file,
concatenate the per-key contributions in order. -/
def buildRecipContent (fs : FS) (env : Env) : List Str → Except Str Str
  | [] => .ok []
  | k :: ks =>
    if k ∈ fs then
      match env.keyLines k with
      | none => .error (msgKeyReadFail ++ k)
      | some lines =>
        match buildRecipContent fs env ks with
        | .error m => .error m
        | .ok rest => .ok (perKeyWrite lines ++ rest)
    else buildRecipContent fs env ks

/-- Result of the inner try block of one iteration: the filesystem after
its effects, the possibly reassigned temp-file variables, the events it
emitted, and either the raised exception or the recorded output path. -/
structure BodyOut where
  fs : FS
  tRecip : Option Str
  tDec : Option Str
  events : List Event
  result : Except Exc (Option Str)

/-- The inner try block of one iteration of AgeWorker.run (src lines
182-284), for one input file at index i, given the loop-carried
temp-file variables. -/
def runBody (cfg : Cfg) (env : Env) (i : Nat) (input : Str) (fs : FS)
    (tR tD : Option Str) : BodyOut :=
  match cfg.mode with
  | .encrypt =>
    if cfg.keys = [] then
      ⟨fs, tR, tD, [], .error ⟨false, msgNeedRecipient⟩⟩
    else
      let recip := recipPathFor env i input
      let fs1 := touch fs recip
      match buildRecipContent fs1 env cfg.keys with
      | .error m => ⟨fs1, some recip, tD, [], .error ⟨false, m⟩⟩
      | .ok content =>
        if content = [] then
          ⟨fs1, some recip, tD, [], .error ⟨false, msgNoValidRecipients⟩⟩
        else
          match env.engine i with
          | .spawnFail m => ⟨fs1, some recip, tD, [], .error ⟨false, m⟩⟩
          | .timeout wrote =>
            let fs2 := if wrote then touch fs1 (input ++ ageExt) else fs1
            ⟨fs2, some recip, tD, [.killed], .error ⟨true, msgTimeout⟩⟩
          | .exits code stderr wrote =>
            let fs2 := if wrote then touch fs1 (input ++ ageExt) else fs1
            if code = 0 then ⟨fs2, some recip, tD, [], .ok none⟩
            else ⟨fs2, some recip, tD, [], .error ⟨false, classifyError stderr code⟩⟩
  | .decrypt =>
    let base := outputPathBase input
    let td := tDecPath env.pid input
    if cfg.keys = [] then
      ⟨fs, tR, some td, [], .error ⟨false, msgNeedIdentity⟩⟩
    else
      match env.engine i with
      | .spawnFail m => ⟨fs, tR, some td, [], .error ⟨false, m⟩⟩
      | .timeout wrote =>
        let fs2 := if wrote then touch fs td else fs
        ⟨fs2, tR, some td, [.killed], .error ⟨true, msgTimeout⟩⟩
      | .exits code stderr wrote =>
        let fs2 := if wrote then touch fs td else fs
        if code = 0 then
          if td ∈ fs2 then
            let final := find_unique_filename fs2 base
            let fs3 := touch (fs2.filter (fun q => q != td)) final
            ⟨fs3, tR, some td, [.renamed td final (decide (final ∈ fs2))], .ok (some final)⟩
          else ⟨fs2, tR, some td, [], .error ⟨false, msgNoOutput ++ td⟩⟩
        else ⟨fs2, tR, some td, [], .error ⟨false, classifyError stderr code⟩⟩

/-- A guarded best-effort deletion: the os.path.exists check followed by
the try-wrapped os.remove of the cleanup block. -/
def removeIfPresent (rm : Str → Bool) (fs : FS) (p : Str) : FS :=
  if p ∈ fs then removeFile rm fs p else fs

/-- The unconditional cleanup of the finally block (src lines 291-297):
delete the recipient-list temp if present, then, in decrypt mode,
delete the temp decrypt output if still present; deletion failures are
swallowed by removeFile. -/
def cleanupFS (rm : Str → Bool) (mode : Mode) (tR tD : Option Str) (fs : FS) : FS :=
  let fs2 := match tR with
    | some p => removeIfPresent rm fs p
    | none => fs
  match tD with
  | some d => if mode = .decrypt then removeIfPresent rm fs2 d else fs2
  | none => fs2

/-- Everything one loop iteration produces. -/
structure IterOut where
  fs : FS
  tRecip : Option Str
  tDec : Option Str
  outcome : FileOutcome
  events : List Event

/-- The progress fraction emitted after file index i of a batch of the
given total size (src line 289). -/
def frac (total i : Nat) : ℚ := ((i : ℚ) + 1) / (total : ℚ)

/-- Conversion of the inner-try result into the recorded outcome:
exceptions become Failed, except the timeout exception which the
specification names TimedOut. -/
def outcomeOfResult : Except Exc (Option Str) → FileOutcome
  | .ok renamed => .success renamed
  | .error e => if e.isTimeout then .timedOut e.msg else .failed e.msg

/-- The error signal the except clause emits, if any. -/
def errEventsOf (name : Str) : Except Exc (Option Str) → List Event
  | .ok _ => []
  | .error e => [.errorEmit name e.msg]

/-- One full iteration of the per-file loop: starting signal, inner try
block, except clause converting the exception into the recorded
outcome and the error signal, then the finally block emitting progress
and cleaning up. -/
def processOne (cfg : Cfg) (env : Env) (rm : Str → Bool) (total i : Nat)
    (input : Str) (fs : FS) (tR tD : Option Str) : IterOut :=
  let b := runBody cfg env i input fs tR tD
  { fs := cleanupFS rm cfg.mode b.tRecip b.tDec b.fs
    tRecip := b.tRecip
    tDec := b.tDec
    outcome := outcomeOfResult b.result
    events := .starting (basename input) :: (b.events ++ errEventsOf (basename input) b.result
      ++ [.progress (frac total i)]) }

/-- Loop-carried state across iterations. -/
structure LoopSt where
  fs : FS
  tRecip : Option Str
  tDec : Option Str
  succ : Nat
  outcomes : List FileOutcome
  events : List Event
deriving DecidableEq

/-- Apply one iteration to the loop state. -/
def stepFile (cfg : Cfg) (env : Env) (rm : Str → Bool) (total i : Nat)
    (input : Str) (st : LoopSt) : LoopSt :=
  let o := processOne cfg env rm total i input st.fs st.tRecip st.tDec
  { fs := o.fs
    tRecip := o.tRecip
    tDec := o.tDec
    succ := st.succ + (if o.outcome.isSuccess then 1 else 0)
    outcomes := st.outcomes ++ [o.outcome]
    events := st.events ++ o.events }

/-- The for loop of AgeWorker.run over the remaining files, starting at
index i. -/
def runAux (cfg : Cfg) (env : Env) (rm : Str → Bool) (total : Nat) :
    Nat → List Str → LoopSt → LoopSt
  | _, [], st => st
  | i, f :: rest, st => runAux cfg env rm total (i + 1) rest (stepFile cfg env rm total i f st)

/-- Aggregate result of one run: the BatchResult of the specification
plus the final filesystem and the event trace. -/
structure RunResult where
  fs : FS
  succ : Nat
  total : Nat
  outcomes : List FileOutcome
  events : List Event

/-- Embedding of AgeWorker.run.  The outer except clause of the source
(which reports a pre-process error and zeroes the total) guards only
code that cannot raise in this model: every fallible operation of the
loop body sits inside the inner try.  The finished signal carries the
success count, the total and the needs-clear flag (mode == encrypt). -/
def runWorker (cfg : Cfg) (env : Env) (rm : Str → Bool) (fs0 : FS) : RunResult :=
  let n := cfg.files.length
  let st := runAux cfg env rm n 0 cfg.files ⟨fs0, none, none, 0, [], []⟩
  ⟨st.fs, st.succ, n, st.outcomes,
    st.events ++ [.finished st.succ n (cfg.mode = .encrypt)]⟩

/-- Whether the invocation-building prefix of the inner try block runs to
the point of spawning the engine process: for encrypt the key list is
non-empty and the assembled recipient list is readable and non-empty;
for decrypt the key list is non-empty. -/
def buildOk (cfg : Cfg) (env : Env) (fs : FS) (i : Nat) (input : Str) : Bool :=
  match cfg.mode with
  | .encrypt =>
    !cfg.keys.isEmpty &&
      (match buildRecipContent (touch fs (recipPathFor env i input)) env cfg.keys with
       | .error _ => false
       | .ok c => !c.isEmpty)
  | .decrypt => !cfg.keys.isEmpty

/-- The progress fractions carried by the progress events of a trace, in
order. -/
def progressEvents (evs : List Event) : List ℚ :=
  evs.filterMap fun e =>
    match e with
    | .progress q => some q
    | _ => none

/-- An engine behaviour that cannot produce a success exit. -/
def EngineBehavior.failing : EngineBehavior → Bool
  | .exits code _ _ => code != 0
  | _ => true

/-- The intended decrypt output path as the claim words it: the
encryption extension stripped whenever the input carries it (judged
as the code judges it, case insensitively), else the decrypted suffix
appended.  Stated from the claim for comparison with outputPathBase. -/
def outputPathBaseSpec (input : Str) : Str :=
  if isAge input then input.take (input.length - ageExt.length)
  else input ++ decryptedExt

/-- The pid-tagged temporary names a run can ever create or delete: the
per-index recipient-list paths and the per-input decrypt temp paths. -/
def artifactNames (cfg : Cfg) (env : Env) : List Str :=
  (List.range cfg.files.length).map (fun j => recipPathFor env j (cfg.files.getD j []))
    ++ cfg.files.map (fun f => tDecPath env.pid f)

/-- An optional loop-carried temp-file path, when present, names one of
the artifacts of the run. -/
def optInArtifacts (cfg : Cfg) (env : Env) : Option Str → Prop
  | none => True
  | some r => r ∈ artifactNames cfg env

/- =====================  Lemmas: decimal rendering  ===================== -/

theorem digitsToNat_append_digit (l : Str) (c : Char) :
    digitsToNat (l ++ [c]) = digitsToNat l * 10 + (c.toNat - 48) := by
  simp [digitsToNat, List.foldl_append]

theorem digitChar_toNat : ∀ d, d < 10 → (digitChar d).toNat = 48 + d := by decide

theorem digitsToNat_natReprAux : ∀ fuel n, n ≤ fuel → digitsToNat (natReprAux fuel n) = n := by
  intro fuel
  induction fuel with
  | zero =>
    intro n hn
    have : n = 0 := by omega
    subst this
    rfl
  | succ fuel ih =>
    intro n hn
    by_cases h10 : n < 10
    · simp only [natReprAux, if_pos h10, digitsToNat, List.foldl]
      have := digitChar_toNat n h10
      omega
    · have hdiv : n / 10 < n := Nat.div_lt_self (by omega) (by omega)
      have hle : n / 10 ≤ fuel := by omega
      simp only [natReprAux, if_neg h10]
      rw [digitsToNat_append_digit, ih _ hle,
        digitChar_toNat (n % 10) (Nat.mod_lt n (by omega))]
      have := Nat.div_add_mod n 10
      omega

theorem digitsToNat_natRepr (n : Nat) : digitsToNat (natRepr n) = n :=
  digitsToNat_natReprAux (n + 1) n (by omega)

theorem natRepr_injective : Function.Injective natRepr := by
  intro a b h
  have := congrArg digitsToNat h
  rwa [digitsToNat_natRepr, digitsToNat_natRepr] at this

/- =====================  Lemmas: path candidates  ===================== -/

theorem joinPath_cancel {d n1 n2 : Str} (h : joinPath d n1 = joinPath d n2) : n1 = n2 := by
  unfold joinPath at h
  split at h
  · exact h
  · split at h
    · exact List.append_cancel_left h
    · exact List.cons.inj (List.append_cancel_left h) |>.2

theorem candName_inj {b e : Str} {k1 k2 : Nat} (h : candName b e k1 = candName b e k2) :
    k1 = k2 := by
  unfold candName at h
  have h1 := List.append_cancel_right h
  have h2 := List.append_cancel_right h1
  have h3 := List.append_cancel_left h2
  exact natRepr_injective h3

theorem joinCand_inj {d b e : Str} {k1 k2 : Nat}
    (h : joinPath d (candName b e k1) = joinPath d (candName b e k2)) : k1 = k2 :=
  candName_inj (joinPath_cancel h)

/- =====================  Lemmas: probing  ===================== -/

theorem probe_some_not_mem {fs : FS} {d b e : Str} :
    ∀ {fuel k : Nat} {p : Str}, probe fs d b e fuel k = some p → p ∉ fs := by
  intro fuel
  induction fuel with
  | zero => intro k p h; simp [probe] at h
  | succ fuel ih =>
    intro k p h
    rw [probe] at h
    split at h
    · exact ih h
    · next hmem =>
      cases h
      exact hmem

theorem probe_none_all_mem {fs : FS} {d b e : Str} :
    ∀ {fuel k : Nat}, probe fs d b e fuel k = none →
      ∀ j, k ≤ j → j < k + fuel → joinPath d (candName b e j) ∈ fs := by
  intro fuel
  induction fuel with
  | zero => intro k _ j _ hj; omega
  | succ fuel ih =>
    intro k h j hkj hj
    rw [probe] at h
    split at h
    · next hmem =>
      rcases Nat.eq_or_lt_of_le hkj with rfl | hlt
      · exact hmem
      · exact ih h j hlt (by omega)
    · exact absurd h (by simp)

theorem probe_isSome (fs : FS) (d b e : Str) (k : Nat) :
    (probe fs d b e (fs.length + 1) k).isSome := by
  by_contra hcon
  have hnone : probe fs d b e (fs.length + 1) k = none := by
    cases hp : probe fs d b e (fs.length + 1) k
    · rfl
    · rw [hp] at hcon; simp at hcon
  have hall := probe_none_all_mem hnone
  have hinj : Function.Injective (fun j : Nat => joinPath d (candName b e (k + j))) := by
    intro a1 a2 ha
    have := joinCand_inj ha
    omega
  have hnodup : ((List.range (fs.length + 1)).map
      (fun j : Nat => joinPath d (candName b e (k + j)))).Nodup :=
    (List.nodup_range (fs.length + 1)).map hinj
  have hcard1 : ((List.range (fs.length + 1)).map
      (fun j : Nat => joinPath d (candName b e (k + j)))).toFinset.card = fs.length + 1 := by
    rw [List.toFinset_card_of_nodup hnodup, List.length_map, List.length_range]
  have hsub : ((List.range (fs.length + 1)).map
      (fun j : Nat => joinPath d (candName b e (k + j)))).toFinset ⊆ fs.toFinset := by
    intro x hx
    rw [List.mem_toFinset] at hx ⊢
    rcases List.mem_map.mp hx with ⟨j, hj, rfl⟩
    rw [List.mem_range] at hj
    exact hall (k + j) (by omega) (by omega)
  have h3 := Finset.card_le_card hsub
  have h4 := fs.toFinset_card_le
  omega

theorem probe_spec {fs : FS} {d b e : Str} :
    ∀ {fuel k : Nat} {p : Str}, probe fs d b e fuel k = some p →
      ∃ j, k ≤ j ∧ j < k + fuel ∧ p = joinPath d (candName b e j) ∧
        ∀ m, k ≤ m → m < j → joinPath d (candName b e m) ∈ fs := by
  intro fuel
  induction fuel with
  | zero => intro k p h; simp [probe] at h
  | succ fuel ih =>
    intro k p h
    rw [probe] at h
    split at h
    · next hmem =>
      rcases ih h with ⟨j, hkj, hjf, rfl, hmall⟩
      refine ⟨j, by omega, by omega, rfl, ?_⟩
      intro m hkm hmj
      rcases Nat.eq_or_lt_of_le hkm with rfl | hlt
      · exact hmem
      · exact hmall m hlt hmj
    · next hmem =>
      cases h
      exact ⟨k, le_refl k, by omega, rfl, fun m h1 h2 => by omega⟩

theorem probe_first_free {fs : FS} {d b e : Str} :
    ∀ {fuel k j : Nat}, k ≤ j → j < k + fuel →
      joinPath d (candName b e j) ∉ fs →
      (∀ m, k ≤ m → m < j → joinPath d (candName b e m) ∈ fs) →
      probe fs d b e fuel k = some (joinPath d (candName b e j)) := by
  intro fuel
  induction fuel with
  | zero => intro k j _ hj _ _; omega
  | succ fuel ih =>
    intro k j hkj hjf hfree hbefore
    rw [probe]
    rcases Nat.eq_or_lt_of_le hkj with rfl | hlt
    · rw [if_neg hfree]
    · rw [if_pos (hbefore k (le_refl k) hlt)]
      exact ih hlt (by omega) hfree (fun m h1 h2 => hbefore m (by omega) h2)

/- =====================  Lemmas: the resolver  ===================== -/

theorem candOf_eq (path : Str) (k : Nat) :
    candOf path k = joinPath (parseBase path).1
      (candName (parseBase path).2.1 (parseBase path).2.2.1 k) := by
  unfold candOf
  rcases parseBase path with ⟨d, b, e, s⟩
  rfl

theorem candOf_inj {path : Str} {k1 k2 : Nat} (h : candOf path k1 = candOf path k2) :
    k1 = k2 := by
  rw [candOf_eq, candOf_eq] at h
  exact joinCand_inj h

theorem find_unique_of_not_mem {fs : FS} {path : Str} (h : path ∉ fs) :
    find_unique_filename fs path = path := by
  simp [find_unique_filename, h]

theorem find_unique_spec {fs : FS} {path : Str} (h : path ∈ fs) :
    ∃ j, startOf path ≤ j ∧ j < startOf path + fs.length + 1 ∧
      find_unique_filename fs path = candOf path j ∧
      candOf path j ∉ fs ∧
      ∀ m, startOf path ≤ m → m < j → candOf path m ∈ fs := by
  have hsome := probe_isSome fs (parseBase path).1 (parseBase path).2.1
    (parseBase path).2.2.1 (startOf path)
  rcases hp : probe fs (parseBase path).1 (parseBase path).2.1 (parseBase path).2.2.1
      (fs.length + 1) (startOf path) with _ | p
  · rw [hp] at hsome; simp at hsome
  · rcases probe_spec hp with ⟨j, hkj, hjf, rfl, hmall⟩
    refine ⟨j, hkj, by omega, ?_, ?_, ?_⟩
    · simp only [find_unique_filename, if_pos h]
      rw [candOf_eq]
      rcases hpb : parseBase path with ⟨d, b, e, s⟩
      have hs : startOf path = s := by rw [startOf, hpb]
      rw [hs] at hp
      simp only [hpb] at hp ⊢
      rw [hp]
      rfl
    · rw [candOf_eq]
      exact probe_some_not_mem hp
    · intro m h1 h2
      rw [candOf_eq]
      exact hmall m h1 h2

theorem find_unique_eq_probe {fs : FS} {path : Str} (h : path ∈ fs) :
    find_unique_filename fs path
      = (probe fs (parseBase path).1 (parseBase path).2.1 (parseBase path).2.2.1
          (fs.length + 1) (startOf path)).getD path := by
  simp only [find_unique_filename, if_pos h]
  rcases hpb : parseBase path with ⟨d, b, e, s⟩
  have hs : startOf path = s := by rw [startOf, hpb]
  rw [hs]

theorem find_unique_advance {fs : FS} {path : Str} {k : Nat}
    (hp : path ∈ fs)
    (hr : find_unique_filename fs path = candOf path k)
    (hnext : candOf path (k + 1) ∉ fs) :
    find_unique_filename (fs ++ [candOf path k]) path = candOf path (k + 1) := by
  rcases find_unique_spec hp with ⟨j, hsj, hjf, heq, hfree, hbefore⟩
  have hjk : j = k := candOf_inj (heq ▸ hr)
  subst hjk
  have hp2 : path ∈ fs ++ [candOf path j] := List.mem_append_left _ hp
  rw [find_unique_eq_probe hp2]
  have hlen : (fs ++ [candOf path j]).length = fs.length + 1 := by simp
  have hfree2 : joinPath (parseBase path).1
      (candName (parseBase path).2.1 (parseBase path).2.2.1 (j + 1))
      ∉ fs ++ [candOf path j] := by
    rw [← candOf_eq]
    intro hmem
    rcases List.mem_append.mp hmem with hin | hin
    · exact hnext hin
    · rcases List.mem_singleton.mp hin with heq2
      exact absurd (candOf_inj heq2) (by omega)
  have hbefore2 : ∀ m, startOf path ≤ m → m < j + 1 →
      joinPath (parseBase path).1
        (candName (parseBase path).2.1 (parseBase path).2.2.1 m) ∈ fs ++ [candOf path j] := by
    intro m h1 h2
    rw [← candOf_eq]
    rcases Nat.lt_or_ge m j with hlt | hge
    · exact List.mem_append_left _ (hbefore m h1 hlt)
    · have : m = j := by omega
      subst this
      exact List.mem_append_right _ (List.mem_singleton.mpr rfl)
  rw [hlen, probe_first_free (by omega) (by omega) hfree2 hbefore2,
    Option.getD_some, ← candOf_eq]

theorem find_unique_not_mem (fs : FS) (path : Str) :
    find_unique_filename fs path ∉ fs := by
  by_cases h : path ∈ fs
  · rcases find_unique_spec h with ⟨j, _, _, heq, hfree, _⟩
    rw [heq]
    exact hfree
  · rw [find_unique_of_not_mem h]
    exact h

/- =====================  Lemmas: cleanup  ===================== -/

theorem mem_removeFile {rm : Str → Bool} {fs : FS} {p q : Str}
    (h : q ∈ removeFile rm fs p) : q ∈ fs := by
  unfold removeFile at h
  split at h
  · exact (List.mem_filter.mp h).1
  · exact h

theorem removeFile_not_mem_self {rm : Str → Bool} {fs : FS} {p : Str}
    (h : rm p = true) : p ∉ removeFile rm fs p := by
  unfold removeFile
  rw [if_pos h]
  intro hmem
  have := (List.mem_filter.mp hmem).2
  simp at this

theorem mem_removeIfPresent {rm : Str → Bool} {fs : FS} {p q : Str}
    (h : q ∈ removeIfPresent rm fs p) : q ∈ fs := by
  unfold removeIfPresent at h
  split at h
  · exact mem_removeFile h
  · exact h

theorem removeIfPresent_not_mem_self {rm : Str → Bool} {fs : FS} {p : Str}
    (h : rm p = true) : p ∉ removeIfPresent rm fs p := by
  unfold removeIfPresent
  split
  · exact removeFile_not_mem_self h
  · next hn => exact hn

theorem mem_cleanupFS {rm : Str → Bool} {mode : Mode} {tR tD : Option Str} {fs : FS} {q : Str}
    (h : q ∈ cleanupFS rm mode tR tD fs) : q ∈ fs := by
  unfold cleanupFS at h
  rcases tD with _ | d <;> rcases tR with _ | r <;> simp only at h
  · exact h
  · exact mem_removeIfPresent h
  · split at h
    · exact mem_removeIfPresent h
    · exact h
  · split at h
    · exact mem_removeIfPresent (mem_removeIfPresent h)
    · exact mem_removeIfPresent h

theorem cleanupFS_tRecip_not_mem {rm : Str → Bool} {mode : Mode} {tD : Option Str}
    {fs : FS} {r : Str} (hrm : rm r = true) :
    r ∉ cleanupFS rm mode (some r) tD fs := by
  unfold cleanupFS
  rcases tD with _ | d <;> simp only
  · exact removeIfPresent_not_mem_self hrm
  · split
    · intro hmem
      exact removeIfPresent_not_mem_self hrm (mem_removeIfPresent hmem)
    · exact removeIfPresent_not_mem_self hrm

theorem cleanupFS_tDec_not_mem {rm : Str → Bool} {tR : Option Str}
    {fs : FS} {d : Str} (hrm : rm d = true) :
    d ∉ cleanupFS rm .decrypt tR (some d) fs := by
  unfold cleanupFS
  rcases tR with _ | r <;> simp only [if_pos rfl] <;> exact removeIfPresent_not_mem_self hrm

/- =====================  Lemmas: the loop body  ===================== -/

theorem runBody_progressEvents (cfg : Cfg) (env : Env) (i : Nat) (input : Str)
    (fs : FS) (tR tD : Option Str) :
    progressEvents ((runBody cfg env i input fs tR tD).events) = [] := by
  cases hm : cfg.mode <;> simp only [runBody, hm] <;>
    (repeat' split) <;> rfl

theorem mem_touch {fs : FS} {p q : Str} (h : q ∈ fs) : q ∈ touch fs p := by
  unfold touch
  split
  · exact h
  · exact List.mem_append_left _ h

theorem touch_mem_self (fs : FS) (p : Str) : p ∈ touch fs p := by
  unfold touch
  split
  · assumption
  · exact List.mem_append_right _ (List.mem_singleton.mpr rfl)

theorem runBody_tRecip_encrypt {cfg : Cfg} (env : Env) (i : Nat) (input : Str)
    (fs : FS) (tR tD : Option Str) (hm : cfg.mode = .encrypt) :
    (runBody cfg env i input fs tR tD).tRecip
      = (if cfg.keys = [] then tR else some (recipPathFor env i input)) := by
  simp only [runBody, hm]
  (repeat' split) <;> rfl

theorem runBody_tDec_encrypt {cfg : Cfg} (env : Env) (i : Nat) (input : Str)
    (fs : FS) (tR tD : Option Str) (hm : cfg.mode = .encrypt) :
    (runBody cfg env i input fs tR tD).tDec = tD := by
  simp only [runBody, hm]
  (repeat' split) <;> rfl

theorem runBody_tRecip_decrypt {cfg : Cfg} (env : Env) (i : Nat) (input : Str)
    (fs : FS) (tR tD : Option Str) (hm : cfg.mode = .decrypt) :
    (runBody cfg env i input fs tR tD).tRecip = tR := by
  simp only [runBody, hm]
  (repeat' split) <;> rfl

theorem runBody_tDec_decrypt {cfg : Cfg} (env : Env) (i : Nat) (input : Str)
    (fs : FS) (tR tD : Option Str) (hm : cfg.mode = .decrypt) :
    (runBody cfg env i input fs tR tD).tDec = some (tDecPath env.pid input) := by
  simp only [runBody, hm]
  (repeat' split) <;> rfl

theorem runBody_not_ok_of_failing (cfg : Cfg) {env : Env} {i : Nat} (input : Str)
    (fs : FS) (tR tD : Option Str) (hf : (env.engine i).failing = true) :
    ∃ e, (runBody cfg env i input fs tR tD).result = .error e := by
  cases hm : cfg.mode <;> simp only [runBody, hm] <;> (repeat' split) <;>
    first
      | exact ⟨_, rfl⟩
      | (exfalso; simp_all [EngineBehavior.failing])

theorem runBody_timeout {cfg : Cfg} {env : Env} {i : Nat} {input : Str}
    {fs : FS} {w : Bool} (tR tD : Option Str)
    (ht : env.engine i = .timeout w)
    (hb : buildOk cfg env fs i input = true) :
    (runBody cfg env i input fs tR tD).result = .error ⟨true, msgTimeout⟩
    ∧ (runBody cfg env i input fs tR tD).events = [.killed] := by
  cases hm : cfg.mode
  · simp only [buildOk, hm, Bool.and_eq_true] at hb
    obtain ⟨hk, hc⟩ := hb
    have hkne : ¬ cfg.keys = [] := by
      intro h
      rw [h] at hk
      simp at hk
    rcases hbc : buildRecipContent (touch fs (recipPathFor env i input)) env cfg.keys
        with m | c
    · rw [hbc] at hc
      simp at hc
    · rw [hbc] at hc
      have hcne : ¬ c = [] := by
        intro h
        rw [h] at hc
        simp at hc
      refine ⟨?_, ?_⟩ <;> simp [runBody, hm, hkne, hbc, hcne, ht]
  · simp only [buildOk, hm] at hb
    have hkne : ¬ cfg.keys = [] := by
      intro h
      rw [h] at hb
      simp at hb
    refine ⟨?_, ?_⟩ <;> simp [runBody, hm, hkne, ht]

theorem runBody_decrypt_success (cfg : Cfg) {env : Env} {i : Nat} (input : Str)
    (fs : FS) {stderr : Str} (tR tD : Option Str)
    (hm : cfg.mode = .decrypt) (hk : ¬ cfg.keys = [])
    (he : env.engine i = .exits 0 stderr true) :
    (runBody cfg env i input fs tR tD).result
      = .ok (some (find_unique_filename (touch fs (tDecPath env.pid input))
          (outputPathBase input)))
    ∧ (runBody cfg env i input fs tR tD).fs
      = touch ((touch fs (tDecPath env.pid input)).filter
          (fun q => q != tDecPath env.pid input))
          (find_unique_filename (touch fs (tDecPath env.pid input)) (outputPathBase input)) := by
  have hmem : tDecPath env.pid input ∈ touch fs (tDecPath env.pid input) :=
    touch_mem_self fs (tDecPath env.pid input)
  refine ⟨?_, ?_⟩ <;> simp [runBody, hm, hk, he, hmem]

theorem runBody_decrypt_no_output (cfg : Cfg) {env : Env} {i : Nat} (input : Str)
    (fs : FS) {stderr : Str} (tR tD : Option Str)
    (hm : cfg.mode = .decrypt) (hk : ¬ cfg.keys = [])
    (he : env.engine i = .exits 0 stderr false)
    (hnot : tDecPath env.pid input ∉ fs) :
    (runBody cfg env i input fs tR tD).result
      = .error ⟨false, msgNoOutput ++ tDecPath env.pid input⟩ := by
  simp [runBody, hm, hk, he, hnot]

theorem runBody_fs_mono {cfg : Cfg} {env : Env} {i : Nat} {input : Str}
    {fs : FS} {tR tD : Option Str} {q : Str}
    (hq : q ∈ fs) (hne : q ≠ tDecPath env.pid input) :
    q ∈ (runBody cfg env i input fs tR tD).fs := by
  cases hm : cfg.mode <;> simp only [runBody, hm] <;> (repeat' split) <;>
    first
      | exact hq
      | exact mem_touch hq
      | exact mem_touch (mem_touch hq)
      | exact mem_touch (List.mem_filter.mpr ⟨hq, by simpa using hne⟩)
      | exact mem_touch (List.mem_filter.mpr ⟨mem_touch hq, by simpa using hne⟩)

/- =====================  Lemmas: one loop step  ===================== -/

theorem stepFile_outcomes (cfg : Cfg) (env : Env) (rm : Str → Bool) (total i : Nat)
    (input : Str) (st : LoopSt) :
    (stepFile cfg env rm total i input st).outcomes
      = st.outcomes ++ [outcomeOfResult (runBody cfg env i input st.fs st.tRecip st.tDec).result] :=
  rfl

theorem stepFile_succ (cfg : Cfg) (env : Env) (rm : Str → Bool) (total i : Nat)
    (input : Str) (st : LoopSt) :
    (stepFile cfg env rm total i input st).succ
      = st.succ + (if (outcomeOfResult
          (runBody cfg env i input st.fs st.tRecip st.tDec).result).isSuccess then 1 else 0) :=
  rfl

theorem stepFile_events (cfg : Cfg) (env : Env) (rm : Str → Bool) (total i : Nat)
    (input : Str) (st : LoopSt) :
    (stepFile cfg env rm total i input st).events
      = st.events ++ (.starting (basename input)
          :: ((runBody cfg env i input st.fs st.tRecip st.tDec).events
            ++ errEventsOf (basename input) (runBody cfg env i input st.fs st.tRecip st.tDec).result
            ++ [.progress (frac total i)])) :=
  rfl

theorem stepFile_tRecip (cfg : Cfg) (env : Env) (rm : Str → Bool) (total i : Nat)
    (input : Str) (st : LoopSt) :
    (stepFile cfg env rm total i input st).tRecip
      = (runBody cfg env i input st.fs st.tRecip st.tDec).tRecip :=
  rfl

theorem stepFile_tDec (cfg : Cfg) (env : Env) (rm : Str → Bool) (total i : Nat)
    (input : Str) (st : LoopSt) :
    (stepFile cfg env rm total i input st).tDec
      = (runBody cfg env i input st.fs st.tRecip st.tDec).tDec :=
  rfl

theorem stepFile_fs (cfg : Cfg) (env : Env) (rm : Str → Bool) (total i : Nat)
    (input : Str) (st : LoopSt) :
    (stepFile cfg env rm total i input st).fs
      = cleanupFS rm cfg.mode (runBody cfg env i input st.fs st.tRecip st.tDec).tRecip
          (runBody cfg env i input st.fs st.tRecip st.tDec).tDec
          (runBody cfg env i input st.fs st.tRecip st.tDec).fs :=
  rfl

theorem progressEvents_append (a b : List Event) :
    progressEvents (a ++ b) = progressEvents a ++ progressEvents b :=
  List.filterMap_append a b _

theorem progressEvents_cons_starting (n : Str) (evs : List Event) :
    progressEvents (.starting n :: evs) = progressEvents evs :=
  rfl

theorem progressEvents_errEventsOf (n : Str) (r : Except Exc (Option Str)) :
    progressEvents (errEventsOf n r) = [] := by
  cases r <;> rfl

theorem stepFile_progress (cfg : Cfg) (env : Env) (rm : Str → Bool) (total i : Nat)
    (input : Str) (st : LoopSt) :
    progressEvents ((stepFile cfg env rm total i input st).events)
      = progressEvents st.events ++ [frac total i] := by
  rw [stepFile_events, progressEvents_append, progressEvents_cons_starting,
    progressEvents_append, progressEvents_append, runBody_progressEvents,
    progressEvents_errEventsOf]
  rfl

theorem outcomeOfResult_error_not_success (e : Exc) :
    (outcomeOfResult (.error e)).isSuccess = false := by
  cases he : e.isTimeout <;> simp [outcomeOfResult, he, FileOutcome.isSuccess]

/- =====================  Lemmas: the loop  ===================== -/

theorem runAux_nil (cfg : Cfg) (env : Env) (rm : Str → Bool) (total i : Nat) (st : LoopSt) :
    runAux cfg env rm total i [] st = st := rfl

theorem runAux_cons (cfg : Cfg) (env : Env) (rm : Str → Bool) (total i : Nat)
    (f : Str) (rest : List Str) (st : LoopSt) :
    runAux cfg env rm total i (f :: rest) st
      = runAux cfg env rm total (i + 1) rest (stepFile cfg env rm total i f st) := rfl

theorem runAux_append (cfg : Cfg) (env : Env) (rm : Str → Bool) (total : Nat) :
    ∀ (l1 l2 : List Str) (i : Nat) (st : LoopSt),
      runAux cfg env rm total i (l1 ++ l2) st
        = runAux cfg env rm total (i + l1.length) l2 (runAux cfg env rm total i l1 st) := by
  intro l1
  induction l1 with
  | nil => intro l2 i st; simp [runAux_nil]
  | cons f rest ih =>
    intro l2 i st
    rw [List.cons_append, runAux_cons, ih, runAux_cons]
    have h : i + 1 + rest.length = i + (f :: rest).length := by simp; omega
    rw [h]

theorem runAux_outcomes (cfg : Cfg) (env : Env) (rm : Str → Bool) (total : Nat) :
    ∀ (l : List Str) (i : Nat) (st : LoopSt),
      ∃ t, (runAux cfg env rm total i l st).outcomes = st.outcomes ++ t
        ∧ t.length = l.length := by
  intro l
  induction l with
  | nil => intro i st; exact ⟨[], by simp [runAux_nil]⟩
  | cons f rest ih =>
    intro i st
    rw [runAux_cons]
    rcases ih (i + 1) (stepFile cfg env rm total i f st) with ⟨t, ht, hlen⟩
    rw [stepFile_outcomes] at ht
    exact ⟨outcomeOfResult (runBody cfg env i f st.fs st.tRecip st.tDec).result :: t,
      by rw [ht]; simp, by simp [hlen]⟩

theorem runAux_outcomes_length (cfg : Cfg) (env : Env) (rm : Str → Bool) (total : Nat)
    (l : List Str) (i : Nat) (st : LoopSt) :
    (runAux cfg env rm total i l st).outcomes.length = st.outcomes.length + l.length := by
  rcases runAux_outcomes cfg env rm total l i st with ⟨t, ht, hlen⟩
  rw [ht]
  simp [hlen]

theorem runAux_events (cfg : Cfg) (env : Env) (rm : Str → Bool) (total : Nat) :
    ∀ (l : List Str) (i : Nat) (st : LoopSt),
      ∃ t, (runAux cfg env rm total i l st).events = st.events ++ t := by
  intro l
  induction l with
  | nil => intro i st; exact ⟨[], by simp [runAux_nil]⟩
  | cons f rest ih =>
    intro i st
    rw [runAux_cons]
    rcases ih (i + 1) (stepFile cfg env rm total i f st) with ⟨t, ht⟩
    rw [stepFile_events] at ht
    exact ⟨_, by rw [ht, List.append_assoc]⟩

theorem runAux_progress (cfg : Cfg) (env : Env) (rm : Str → Bool) (total : Nat) :
    ∀ (l : List Str) (i : Nat) (st : LoopSt),
      progressEvents (runAux cfg env rm total i l st).events
        = progressEvents st.events
          ++ (List.range l.length).map (fun j => frac total (i + j)) := by
  intro l
  induction l with
  | nil => intro i st; simp [runAux_nil]
  | cons f rest ih =>
    intro i st
    rw [runAux_cons, ih, stepFile_progress]
    have hfun : ((List.range rest.length).map (fun j => frac total (i + 1 + j)))
        = (List.range rest.length).map (fun j => frac total (i + (j + 1))) := by
      apply List.map_congr_left
      intro j _
      congr 1
      omega
    rw [List.append_assoc, hfun]
    congr 1
    rw [List.length_cons, List.range_succ_eq_map, List.map_cons, List.map_map]
    simp [Function.comp]

theorem runAux_failing (cfg : Cfg) (env : Env) (rm : Str → Bool) (total : Nat)
    (hf : ∀ i, (env.engine i).failing = true) :
    ∀ (l : List Str) (i : Nat) (st : LoopSt),
      (runAux cfg env rm total i l st).succ = st.succ
      ∧ ∀ o ∈ (runAux cfg env rm total i l st).outcomes,
          o ∈ st.outcomes ∨ o.isSuccess = false := by
  intro l
  induction l with
  | nil => intro i st; exact ⟨rfl, fun o ho => .inl ho⟩
  | cons f rest ih =>
    intro i st
    rw [runAux_cons]
    rcases ih (i + 1) (stepFile cfg env rm total i f st) with ⟨hsucc, hout⟩
    rcases runBody_not_ok_of_failing cfg f st.fs st.tRecip st.tDec (hf i)
      with ⟨e, he⟩
    constructor
    · rw [hsucc, stepFile_succ, he]
      rw [outcomeOfResult_error_not_success]
      simp
    · intro o ho
      rcases hout o ho with hin | hfail
      · rw [stepFile_outcomes] at hin
        rcases List.mem_append.mp hin with hin2 | hin2
        · exact .inl hin2
        · right
          rcases List.mem_singleton.mp hin2 with rfl
          rw [he]
          exact outcomeOfResult_error_not_success e
      · exact .inr hfail

/- =====================  Claim theorems  ===================== -/

/-- C8: key-file classification discards stripped-empty and comment lines,
inspects the first remaining line, classifies by the required prefix
(recipient prefix for public, identity secret prefix for private),
returns invalid when no non-comment line remains, and an unreadable
file yields invalid without raising (the function is total with the
unreadable case mapped to false). -/
theorem C8_validate_key_file (content : Option (List Str)) (kt : KeyTy) :
    (content = none → validateKeyFile content kt = false)
    ∧ (∀ ls, content = some ls → keptLines ls = [] → validateKeyFile content kt = false)
    ∧ (∀ ls, content = some ls →
        (validateKeyFile content kt = true
          ↔ ∃ first rest, keptLines ls = first :: rest
              ∧ (requiredPrefix kt).isPrefixOf first = true)) := by
  refine ⟨?_, ?_, ?_⟩
  · rintro rfl
    rfl
  · rintro ls rfl h
    simp only [validateKeyFile, h]
  · rintro ls rfl
    simp only [validateKeyFile]
    rcases h : keptLines ls with _ | ⟨first, rest⟩
    · simp
    · constructor
      · intro hp
        exact ⟨first, rest, rfl, hp⟩
      · rintro ⟨f, r, heq, hp⟩
        cases heq
        exact hp

/-- Witness for C8 at concrete inputs: a comment line followed by a
recipient key validates as public, and an unreadable file is invalid. -/
theorem C8_witness :
    validateKeyFile (some [("# c").data, ("age1xyz").data]) KeyTy.pub = true
    ∧ validateKeyFile none KeyTy.priv = false := by
  constructor
  · exact ((C8_validate_key_file (some [("# c").data, ("age1xyz").data]) KeyTy.pub).2.2
      _ rfl).mpr ⟨("age1xyz").data, [], by decide, by decide⟩
  · exact (C8_validate_key_file none KeyTy.priv).1 rfl

/-- C6: a collected batch that contains a file with the encryption
extension together with a file without it is rejected at batch level:
the drop handler returns the mixed-files error, which sets the error
banner and never reaches a Ready decision, so no worker is started and
no engine process is spawned. -/
theorem C6_mixed_rejected (collected : List Str) (p q : Str)
    (hp : p ∈ collected) (hq : q ∈ collected)
    (hpa : isAge p = true) (hqa : isAge q = false) :
    onFilesDropped collected = .mixed
    ∧ ∀ fl, onFilesDropped collected ≠ DropDecision.decryptReady fl
        ∧ onFilesDropped collected ≠ DropDecision.encryptReady fl := by
  have hne : ¬ collected = [] := by
    rintro rfl
    cases hp
  have hany : collected.any isAge = true := List.any_eq_true.mpr ⟨p, hp, hpa⟩
  have hall : collected.all isAge = false := by
    cases hallc : collected.all isAge
    · rfl
    · have := List.all_eq_true.mp hallc q hq
      rw [hqa] at this
      cases this
  have hdec : onFilesDropped collected = .mixed := by
    simp [onFilesDropped, hne, hany, hall]
  refine ⟨hdec, ?_⟩
  intro fl
  rw [hdec]
  constructor <;> (intro h; cases h)

/-- Witness for C6 at a concrete mixed batch. -/
theorem C6_witness :
    onFilesDropped [("a.age").data, ("b.txt").data] = DropDecision.mixed := by
  exact (C6_mixed_rejected [("a.age").data, ("b.txt").data] (("a.age").data) (("b.txt").data)
    (by decide) (by decide) (by decide) (by decide)).1

/-- C4 counterexample: the claim says re-resolving after creating the
returned candidate advances the suffix number by exactly one, but with
f.txt and f (2).txt existing, resolving f.txt yields f (1).txt and,
after creating it, re-resolving yields f (3).txt rather than
f (2).txt: the suffix advanced by two. -/
theorem C4_counterexample :
    find_unique_filename [("f.txt").data, ("f (2).txt").data] ("f.txt").data
      = ("f (1).txt").data
    ∧ find_unique_filename [("f.txt").data, ("f (2).txt").data, ("f (1).txt").data]
        ("f.txt").data = ("f (3).txt").data
    ∧ ("f (3).txt").data ≠ ("f (2).txt").data := by
  refine ⟨by decide, by decide, by decide⟩

/-- C4 amended: resolve returns the path unchanged when it does not
exist; otherwise it probes candidates from the parsed starting counter
and returns the first free one, which does not exist at return time
and is preceded only by existing candidates; re-resolving after
creating the returned candidate advances the suffix to the next free
number, which is exactly one more whenever that next candidate is
free (pre-existing higher-numbered files can make it skip). -/
theorem C4_amended (fs : FS) (path : Str) :
    (path ∉ fs → find_unique_filename fs path = path)
    ∧ find_unique_filename fs path ∉ fs
    ∧ (path ∈ fs → ∃ k, startOf path ≤ k
        ∧ find_unique_filename fs path = candOf path k
        ∧ candOf path k ∉ fs
        ∧ ∀ m, startOf path ≤ m → m < k → candOf path m ∈ fs)
    ∧ (∀ k, path ∈ fs → find_unique_filename fs path = candOf path k →
        candOf path (k + 1) ∉ fs →
        find_unique_filename (fs ++ [candOf path k]) path = candOf path (k + 1)) := by
  refine ⟨find_unique_of_not_mem, find_unique_not_mem fs path, ?_, ?_⟩
  · intro h
    rcases find_unique_spec h with ⟨j, h1, _, h3, h4, h5⟩
    exact ⟨j, h1, h3, h4, h5⟩
  · intro k h hr hn
    exact find_unique_advance h hr hn

/-- Witness for C4 at concrete inputs: resolution of a free path is the
identity, a resolved path never exists, and with only f.txt and its
first candidate present the suffix advances from one to two. -/
theorem C4_witness :
    find_unique_filename [] ("g.txt").data = ("g.txt").data
    ∧ find_unique_filename [("f.txt").data] ("f.txt").data ∉ ([("f.txt").data] : FS)
    ∧ find_unique_filename ([("f.txt").data] ++ [candOf ("f.txt").data 1]) ("f.txt").data
        = candOf ("f.txt").data (1 + 1) := by
  refine ⟨(C4_amended [] (("g.txt").data)).1 (by decide),
    (C4_amended [("f.txt").data] (("f.txt").data)).2.1, ?_⟩
  exact (C4_amended [("f.txt").data] (("f.txt").data)).2.2.2 1 (by decide) (by decide)
    (by decide)

theorem removesuffix_of_suffix {s t : Str} (hne : t ≠ []) (h : t.isSuffixOf s = true) :
    removesuffix s t = s.take (s.length - t.length) := by
  unfold removesuffix
  rw [if_pos]
  simp [h, List.isEmpty_iff, hne]

theorem removesuffix_of_not_suffix {s t : Str} (h : t.isSuffixOf s = false) :
    removesuffix s t = s := by
  unfold removesuffix
  rw [if_neg]
  simp [h]

theorem isAge_of_endsWith {input : Str} (h : endsWith input ageExt = true) :
    isAge input = true := by
  unfold endsWith at h
  have hsuf : ageExt <:+ input := List.isSuffixOf_iff_suffix.mp h
  have hmap : pyLower ageExt <:+ pyLower input := List.IsSuffix.map Char.toLower hsuf
  have hlow : pyLower ageExt = ageExt := by decide
  rw [hlow] at hmap
  unfold isAge endsWith
  exact List.isSuffixOf_iff_suffix.mpr hmap

/-- C3 counterexample: the input A.AGE carries the encryption extension
by the case-insensitive test the code itself applies, yet the intended
output path is neither the stripped path A nor the appended path
A.AGE.decrypted: the case-sensitive removesuffix leaves the input
unchanged, diverging from the claimed output on this input. -/
theorem C3_counterexample :
    isAge ("A.AGE").data = true
    ∧ outputPathBase ("A.AGE").data = ("A.AGE").data
    ∧ outputPathBase ("A.AGE").data ≠ ("A").data
    ∧ outputPathBase ("A.AGE").data ≠ ("A.AGE").data ++ decryptedExt
    ∧ outputPathBase ("A.AGE").data ≠ outputPathBaseSpec ("A.AGE").data := by decide

/-- C3 amended: the intended final output path strips the lowercase
encryption extension exactly when the input ends with it literally;
when the input matches the extension only case-insensitively the
intended output is the input path itself, and when it does not match
at all the decrypted suffix is appended.  On a success exit with the
ephemeral temporary output present, the iteration records Success
carrying the unique-resolved intended path onto which the temporary
file is renamed, and that path does not exist at the moment of the
rename. -/
theorem C3_decrypt_output (input : Str) :
    (endsWith input ageExt = true →
      outputPathBase input = input.take (input.length - ageExt.length))
    ∧ (isAge input = true → endsWith input ageExt = false → outputPathBase input = input)
    ∧ (isAge input = false → outputPathBase input = input ++ decryptedExt)
    ∧ (∀ (cfg : Cfg) (env : Env) (rm : Str → Bool) (total i : Nat) (st : LoopSt)
        (stderr : Str),
        cfg.mode = .decrypt → cfg.keys ≠ [] → env.engine i = .exits 0 stderr true →
        (stepFile cfg env rm total i input st).outcomes
          = st.outcomes ++ [.success (some (find_unique_filename
              (touch st.fs (tDecPath env.pid input)) (outputPathBase input)))]
        ∧ find_unique_filename (touch st.fs (tDecPath env.pid input)) (outputPathBase input)
            ∉ touch st.fs (tDecPath env.pid input)) := by
  refine ⟨?_, ?_, ?_, ?_⟩
  · intro h
    unfold outputPathBase
    rw [if_pos (isAge_of_endsWith h)]
    exact removesuffix_of_suffix (by decide) h
  · intro ha hx
    unfold outputPathBase
    rw [if_pos ha]
    exact removesuffix_of_not_suffix hx
  · intro ha
    unfold outputPathBase
    rw [if_neg (by simp [ha])]
  · intro cfg env rm total i st stderr hm hk he
    have hres := runBody_decrypt_success cfg input st.fs st.tRecip st.tDec hm hk he
    constructor
    · rw [stepFile_outcomes, hres.1]
      rfl
    · exact find_unique_not_mem _ _

/-- Witness for C3 amended: a lowercase input is stripped, and a concrete
decrypt success records the resolved intended path. -/
theorem C3_witness :
    outputPathBase ("a.age").data
      = (("a.age").data).take ((("a.age").data).length - ageExt.length)
    ∧ (stepFile ⟨.decrypt, [("x.age").data], [("k").data]⟩
        ⟨fun _ => .exits 0 [] true, fun _ => none, [], 7⟩ (fun _ => true) 1 0 ("x.age").data
        ⟨[("x.age").data], none, none, 0, [], []⟩).outcomes
      = [FileOutcome.success (some (("x").data))] := by
  constructor
  · exact (C3_decrypt_output ("a.age").data).1 (by decide)
  · have h := ((C3_decrypt_output ("x.age").data).2.2.2 ⟨.decrypt, [("x.age").data], [("k").data]⟩
      ⟨fun _ => .exits 0 [] true, fun _ => none, [], 7⟩ (fun _ => true) 1 0
      ⟨[("x.age").data], none, none, 0, [], []⟩ [] rfl (by decide) rfl).1
    rw [h]
    decide

/-- C7: a decrypt invocation whose engine exits with code zero while the
ephemeral temporary output is absent records Failed with the
engine-reported-success-but-no-output diagnostic and does not count
toward the success count. -/
theorem C7_missing_output (cfg : Cfg) (env : Env) (rm : Str → Bool) (total i : Nat)
    (input : Str) (st : LoopSt) (stderr : Str)
    (hm : cfg.mode = .decrypt) (hk : cfg.keys ≠ [])
    (he : env.engine i = .exits 0 stderr false)
    (hnot : tDecPath env.pid input ∉ st.fs) :
    (stepFile cfg env rm total i input st).outcomes
      = st.outcomes ++ [.failed (msgNoOutput ++ tDecPath env.pid input)]
    ∧ (stepFile cfg env rm total i input st).succ = st.succ := by
  have hres := runBody_decrypt_no_output cfg input st.fs st.tRecip st.tDec hm hk he hnot
  constructor
  · rw [stepFile_outcomes, hres]
    rfl
  · rw [stepFile_succ, hres]
    simp [outcomeOfResult, FileOutcome.isSuccess]

/-- Witness for C7 at a concrete decrypt batch whose engine claims
success without writing the temporary output. -/
theorem C7_witness :
    (stepFile ⟨.decrypt, [("x.age").data], [("k").data]⟩
        ⟨fun _ => .exits 0 [] false, fun _ => none, [], 7⟩ (fun _ => true) 1 0 ("x.age").data
        ⟨[("x.age").data], none, none, 0, [], []⟩).outcomes
      = [FileOutcome.failed (msgNoOutput ++ ("x.temp_decrypted_7").data)]
    ∧ (stepFile ⟨.decrypt, [("x.age").data], [("k").data]⟩
        ⟨fun _ => .exits 0 [] false, fun _ => none, [], 7⟩ (fun _ => true) 1 0 ("x.age").data
        ⟨[("x.age").data], none, none, 0, [], []⟩).succ = 0 := by
  have h := C7_missing_output ⟨.decrypt, [("x.age").data], [("k").data]⟩
    ⟨fun _ => .exits 0 [] false, fun _ => none, [], 7⟩ (fun _ => true) 1 0 ("x.age").data
    ⟨[("x.age").data], none, none, 0, [], []⟩ [] rfl (by decide) rfl (by decide)
  constructor
  · rw [h.1]
    decide
  · exact h.2

/-- C1: whatever the iteration outcome, the cleanup of the finally block
leaves neither the recipient-list temp file nor, in decrypt mode, the
temp decrypt output on disk, provided the deletions themselves
succeed; and the recorded outcome never depends on whether cleanup
deletions succeed, so cleanup failures are swallowed rather than
surfaced. -/
theorem C1_cleanup (cfg : Cfg) (env : Env) (total i : Nat) (input : Str) (st : LoopSt) :
    (∀ (rm : Str → Bool) (r : Str), rm r = true →
      (stepFile cfg env rm total i input st).tRecip = some r →
      r ∉ (stepFile cfg env rm total i input st).fs)
    ∧ (∀ (rm : Str → Bool) (d : Str), rm d = true → cfg.mode = .decrypt →
      (stepFile cfg env rm total i input st).tDec = some d →
      d ∉ (stepFile cfg env rm total i input st).fs)
    ∧ (∀ rm1 rm2 : Str → Bool,
      (stepFile cfg env rm1 total i input st).outcomes
        = (stepFile cfg env rm2 total i input st).outcomes) := by
  refine ⟨?_, ?_, ?_⟩
  · intro rm r hrm hR
    rw [stepFile_tRecip] at hR
    rw [stepFile_fs, hR]
    exact cleanupFS_tRecip_not_mem hrm
  · intro rm d hrm hmode hD
    rw [stepFile_tDec] at hD
    rw [stepFile_fs, hD, hmode]
    exact cleanupFS_tDec_not_mem hrm
  · intro rm1 rm2
    rfl

/-- Witness for C1: a concrete successful encrypt iteration leaves its
recipient-list temp file deleted. -/
theorem C1_witness :
    (".temp_recipients_7_0.txt").data
      ∉ (stepFile ⟨.encrypt, [("x").data], [("k").data]⟩
          ⟨fun _ => .exits 0 [] true, fun _ => some [("age1abc").data], [], 7⟩
          (fun _ => true) 1 0 ("x").data
          ⟨[("x").data, ("k").data], none, none, 0, [], []⟩).fs := by
  exact (C1_cleanup ⟨.encrypt, [("x").data], [("k").data]⟩
      ⟨fun _ => .exits 0 [] true, fun _ => some [("age1abc").data], [], 7⟩ 1 0 ("x").data
      ⟨[("x").data, ("k").data], none, none, 0, [], []⟩).1
    (fun _ => true) ((".temp_recipients_7_0.txt").data) rfl (by decide)

/-- C2: the batch is never aborted by a per-file failure: the reported
total and the number of recorded outcomes always equal the number of
input files, and under an engine that fails on every invocation the
success count is zero and every recorded outcome is a non-success
(Failed or TimedOut), with no file dropped. -/
theorem C2_no_abort (cfg : Cfg) (env : Env) (rm : Str → Bool) (fs0 : FS) :
    (runWorker cfg env rm fs0).total = cfg.files.length
    ∧ (runWorker cfg env rm fs0).outcomes.length = cfg.files.length
    ∧ ((∀ i, (env.engine i).failing = true) →
        (runWorker cfg env rm fs0).succ = 0
        ∧ ∀ o ∈ (runWorker cfg env rm fs0).outcomes, o.isSuccess = false) := by
  refine ⟨rfl, ?_, ?_⟩
  · show (runAux cfg env rm cfg.files.length 0 cfg.files
      ⟨fs0, none, none, 0, [], []⟩).outcomes.length = cfg.files.length
    rw [runAux_outcomes_length]
    simp
  · intro hf
    have h := runAux_failing cfg env rm cfg.files.length hf cfg.files 0
      ⟨fs0, none, none, 0, [], []⟩
    constructor
    · exact h.1
    · intro o ho
      rcases h.2 o ho with hin | hfail
      · cases hin
      · exact hfail

/-- Witness for C2: a two-file batch against an engine whose spawn always
fails attempts both files and succeeds on none. -/
theorem C2_witness :
    (runWorker ⟨.encrypt, [("a").data, ("b").data], [("k").data]⟩
        ⟨fun _ => .spawnFail [], fun _ => none, [], 7⟩ (fun _ => true)
        [("a").data, ("b").data, ("k").data]).total = 2
    ∧ (runWorker ⟨.encrypt, [("a").data, ("b").data], [("k").data]⟩
        ⟨fun _ => .spawnFail [], fun _ => none, [], 7⟩ (fun _ => true)
        [("a").data, ("b").data, ("k").data]).outcomes.length = 2
    ∧ (runWorker ⟨.encrypt, [("a").data, ("b").data], [("k").data]⟩
        ⟨fun _ => .spawnFail [], fun _ => none, [], 7⟩ (fun _ => true)
        [("a").data, ("b").data, ("k").data]).succ = 0 := by
  have h := C2_no_abort ⟨.encrypt, [("a").data, ("b").data], [("k").data]⟩
    ⟨fun _ => .spawnFail [], fun _ => none, [], 7⟩ (fun _ => true)
    [("a").data, ("b").data, ("k").data]
  exact ⟨h.1, h.2.1, (h.2.2 (fun i => rfl)).1⟩

/-- C9: progress notifications are emitted exactly once per file in the
supplied order, carrying the fractions one over the total up to one:
the emitted list equals the list of fractions of successive indices,
is strictly increasing, and its last element is one whenever the
batch is non-empty. -/
theorem C9_progress (cfg : Cfg) (env : Env) (rm : Str → Bool) (fs0 : FS) :
    progressEvents (runWorker cfg env rm fs0).events
      = (List.range cfg.files.length).map (fun j => frac cfg.files.length j)
    ∧ List.Pairwise (fun a b => a < b) (progressEvents (runWorker cfg env rm fs0).events)
    ∧ (cfg.files.length ≠ 0 →
        (progressEvents (runWorker cfg env rm fs0).events).getLast? = some 1) := by
  have hev : progressEvents (runWorker cfg env rm fs0).events
      = (List.range cfg.files.length).map (fun j => frac cfg.files.length j) := by
    show progressEvents ((runAux cfg env rm cfg.files.length 0 cfg.files
        ⟨fs0, none, none, 0, [], []⟩).events ++ [.finished _ _ _]) = _
    rw [progressEvents_append, runAux_progress]
    simp [progressEvents]
  have hmono : ∀ a b : Nat, a < b → b < cfg.files.length →
      frac cfg.files.length a < frac cfg.files.length b := by
    intro a b hab hb
    unfold frac
    have hpos : (0 : ℚ) < (cfg.files.length : ℚ) := by
      have : 0 < cfg.files.length := by omega
      exact_mod_cast this
    rw [div_lt_div_iff_of_pos_right hpos]
    have : (a : ℚ) < (b : ℚ) := by exact_mod_cast hab
    linarith
  refine ⟨hev, ?_, ?_⟩
  · rw [hev]
    rw [List.pairwise_map]
    have hrange := List.pairwise_lt_range cfg.files.length
    refine List.Pairwise.imp_of_mem ?_ hrange
    intro a b ha hb hab
    exact hmono a b hab (List.mem_range.mp hb)
  · intro hne
    rw [hev]
    rcases hn : cfg.files.length with _ | m
    · exact absurd hn hne
    · rw [List.range_succ, List.map_append]
      rw [show List.map (fun j => frac (m + 1) j) [m] = [frac (m + 1) m] from rfl]
      rw [List.getLast?_concat]
      have : frac (m + 1) m = 1 := by
        unfold frac
        have hcast : ((m + 1 : Nat) : ℚ) = (m : ℚ) + 1 := by push_cast; ring
        rw [hcast]
        apply div_self
        have : (0 : ℚ) < (m : ℚ) + 1 := by positivity
        linarith
      rw [this]

/-- Witness for C9: a concrete two-file batch emits fractions one half
and one, ending at one. -/
theorem C9_witness :
    (progressEvents (runWorker ⟨.encrypt, [("a").data, ("b").data], []⟩
        ⟨fun _ => .spawnFail [], fun _ => none, [], 7⟩ (fun _ => true)
        [("a").data, ("b").data]).events).getLast? = some 1 := by
  exact (C9_progress ⟨.encrypt, [("a").data, ("b").data], []⟩
    ⟨fun _ => .spawnFail [], fun _ => none, [], 7⟩ (fun _ => true)
    [("a").data, ("b").data]).2.2 (by decide)

/- =====================  Lemmas: list indexing helpers  ===================== -/

theorem getElem?_of_drop_cons :
    ∀ {l : List Str} {i : Nat} {f : Str} {rest : List Str},
      l.drop i = f :: rest → l[i]? = some f := by
  intro l
  induction l with
  | nil => intro i f rest h; rw [List.drop_nil] at h; cases h
  | cons a t ih =>
    intro i f rest h
    cases i with
    | zero =>
      rw [List.drop_zero] at h
      cases h
      simp
    | succ i =>
      rw [List.getElem?_cons_succ]
      exact ih h

theorem getD_of_getElem? :
    ∀ {l : List Str} {i : Nat} {f d : Str}, l[i]? = some f → l.getD i d = f := by
  intro l
  induction l with
  | nil => intro i f d h; cases h
  | cons a t ih =>
    intro i f d h
    cases i with
    | zero =>
      rw [List.getElem?_cons_zero] at h
      cases h
      rfl
    | succ i =>
      rw [List.getElem?_cons_succ] at h
      exact ih h

theorem getD_mem :
    ∀ {l : List Str} {i : Nat} {d : Str}, i < l.length → l.getD i d ∈ l := by
  intro l
  induction l with
  | nil => intro i d h; cases h
  | cons a t ih =>
    intro i d h
    cases i with
    | zero => exact List.mem_cons_self a t
    | succ i => exact List.mem_cons_of_mem a (ih (by simpa using h))

theorem drop_eq_getD_cons :
    ∀ {l : List Str} {i : Nat}, i < l.length → l.drop i = l.getD i [] :: l.drop (i + 1) := by
  intro l
  induction l with
  | nil => intro i h; cases h
  | cons a t ih =>
    intro i h
    cases i with
    | zero => rfl
    | succ i => exact ih (by simpa using h)

/- =====================  Claim C5  ===================== -/

/-- C5: when the engine invocation of file index i (reached with a
successfully built invocation) hits the 300 second ceiling, the
iteration records exactly one TimedOut outcome carrying the fixed
diagnostic, its event trace shows the kill of the process followed by
the single error signal and the progress signal, the ephemeral
recipient-list and temp decrypt files of the iteration are gone
afterwards (when their deletion succeeds), and the batch is not
aborted: the full run still records one outcome per file, with the
TimedOut outcome at index i. -/
theorem C5_timeout (cfg : Cfg) (env : Env) (rm : Str → Bool) (fs0 : FS)
    (i : Nat) (w : Bool) (input : Str) (stI : LoopSt)
    (hi : i < cfg.files.length)
    (hinput : cfg.files.getD i [] = input)
    (hstI : runAux cfg env rm cfg.files.length 0 (cfg.files.take i)
        ⟨fs0, none, none, 0, [], []⟩ = stI)
    (ht : env.engine i = .timeout w)
    (hb : buildOk cfg env stI.fs i input = true) :
    (stepFile cfg env rm cfg.files.length i input stI).outcomes
      = stI.outcomes ++ [.timedOut msgTimeout]
    ∧ (stepFile cfg env rm cfg.files.length i input stI).events
      = stI.events ++ [.starting (basename input), .killed,
          .errorEmit (basename input) msgTimeout, .progress (frac cfg.files.length i)]
    ∧ (cfg.mode = .encrypt → rm (recipPathFor env i input) = true →
        recipPathFor env i input ∉ (stepFile cfg env rm cfg.files.length i input stI).fs)
    ∧ (cfg.mode = .decrypt → rm (tDecPath env.pid input) = true →
        tDecPath env.pid input ∉ (stepFile cfg env rm cfg.files.length i input stI).fs)
    ∧ (runWorker cfg env rm fs0).outcomes[i]? = some (.timedOut msgTimeout)
    ∧ (runWorker cfg env rm fs0).outcomes.length = cfg.files.length := by
  have hbt := runBody_timeout stI.tRecip stI.tDec ht hb
  have hout : (stepFile cfg env rm cfg.files.length i input stI).outcomes
      = stI.outcomes ++ [.timedOut msgTimeout] := by
    rw [stepFile_outcomes, hbt.1]
    rfl
  have hsplit : runAux cfg env rm cfg.files.length 0 cfg.files ⟨fs0, none, none, 0, [], []⟩
      = runAux cfg env rm cfg.files.length (i + 1) (cfg.files.drop (i + 1))
          (stepFile cfg env rm cfg.files.length i input stI) := by
    have h2 := runAux_append cfg env rm cfg.files.length (cfg.files.take i)
      (cfg.files.drop i) 0 ⟨fs0, none, none, 0, [], []⟩
    rw [List.take_append_drop] at h2
    have hidx : 0 + (cfg.files.take i).length = i := by
      rw [List.length_take]
      omega
    rw [hidx, hstI] at h2
    have h3 : cfg.files.drop i = input :: cfg.files.drop (i + 1) := by
      rw [drop_eq_getD_cons hi, hinput]
    rw [h3, runAux_cons] at h2
    exact h2
  have hlenI : stI.outcomes.length = i := by
    rw [← hstI, runAux_outcomes_length]
    have hlen : (cfg.files.take i).length = i := by
      rw [List.length_take]
      omega
    simp [hlen]
  refine ⟨hout, ?_, ?_, ?_, ?_, ?_⟩
  · rw [stepFile_events, hbt.1, hbt.2]
    rfl
  · intro hm hrm
    have hk : ¬ cfg.keys = [] := by
      rw [buildOk, hm] at hb
      intro h
      rw [h] at hb
      simp at hb
    have hR : (stepFile cfg env rm cfg.files.length i input stI).tRecip
        = some (recipPathFor env i input) := by
      rw [stepFile_tRecip, runBody_tRecip_encrypt env i input stI.fs stI.tRecip stI.tDec hm,
        if_neg hk]
    rw [stepFile_fs]
    rw [stepFile_tRecip] at hR
    rw [hR]
    exact cleanupFS_tRecip_not_mem hrm
  · intro hm hrm
    have hD : (stepFile cfg env rm cfg.files.length i input stI).tDec
        = some (tDecPath env.pid input) :=
      by rw [stepFile_tDec, runBody_tDec_decrypt env i input stI.fs stI.tRecip stI.tDec hm]
    rw [stepFile_fs]
    rw [stepFile_tDec] at hD
    rw [hD, hm]
    exact cleanupFS_tDec_not_mem hrm
  · show (runAux cfg env rm cfg.files.length 0 cfg.files
        ⟨fs0, none, none, 0, [], []⟩).outcomes[i]? = some (.timedOut msgTimeout)
    rw [hsplit]
    rcases runAux_outcomes cfg env rm cfg.files.length (cfg.files.drop (i + 1)) (i + 1)
        (stepFile cfg env rm cfg.files.length i input stI) with ⟨t, htl, _⟩
    rw [htl, hout]
    rw [List.append_assoc]
    rw [List.getElem?_append_right (by omega)]
    rw [hlenI]
    simp
  · show (runAux cfg env rm cfg.files.length 0 cfg.files
        ⟨fs0, none, none, 0, [], []⟩).outcomes.length = cfg.files.length
    rw [runAux_outcomes_length]
    simp

/-- Witness for C5: a single-file decrypt batch whose engine times out. -/
theorem C5_witness :
    (stepFile ⟨.decrypt, [("x.age").data], [("k").data]⟩
        ⟨fun _ => .timeout false, fun _ => none, [], 7⟩ (fun _ => true) 1 0 ("x.age").data
        ⟨[("x.age").data], none, none, 0, [], []⟩).outcomes
      = [FileOutcome.timedOut msgTimeout]
    ∧ ("x.temp_decrypted_7").data
        ∉ (stepFile ⟨.decrypt, [("x.age").data], [("k").data]⟩
            ⟨fun _ => .timeout false, fun _ => none, [], 7⟩ (fun _ => true) 1 0 ("x.age").data
            ⟨[("x.age").data], none, none, 0, [], []⟩).fs
    ∧ (runWorker ⟨.decrypt, [("x.age").data], [("k").data]⟩
        ⟨fun _ => .timeout false, fun _ => none, [], 7⟩ (fun _ => true)
        [("x.age").data]).outcomes[0]? = some (FileOutcome.timedOut msgTimeout) := by
  have h := C5_timeout ⟨.decrypt, [("x.age").data], [("k").data]⟩
    ⟨fun _ => .timeout false, fun _ => none, [], 7⟩ (fun _ => true) [("x.age").data]
    0 false ("x.age").data ⟨[("x.age").data], none, none, 0, [], []⟩
    (by decide) rfl rfl rfl (by decide)
  refine ⟨h.1.trans (by decide), ?_, h.2.2.2.2.1⟩
  intro hmem
  exact h.2.2.2.1 rfl rfl hmem

/- =====================  Claim C10  ===================== -/

theorem recip_mem_artifacts (cfg : Cfg) (env : Env) {i : Nat}
    (hi : i < cfg.files.length) :
    recipPathFor env i (cfg.files.getD i []) ∈ artifactNames cfg env :=
  List.mem_append_left _ (List.mem_map.mpr ⟨i, List.mem_range.mpr hi, rfl⟩)

theorem tdec_mem_artifacts (cfg : Cfg) (env : Env) {f : Str} (hf : f ∈ cfg.files) :
    tDecPath env.pid f ∈ artifactNames cfg env :=
  List.mem_append_right _ (List.mem_map.mpr ⟨f, hf, rfl⟩)

theorem mem_removeFile_of_ne {rm : Str → Bool} {fs : FS} {p q : Str}
    (hq : q ∈ fs) (hne : q ≠ p) : q ∈ removeFile rm fs p := by
  unfold removeFile
  split
  · exact List.mem_filter.mpr ⟨hq, by simpa using hne⟩
  · exact hq

theorem mem_removeIfPresent_of_ne {rm : Str → Bool} {fs : FS} {p q : Str}
    (hq : q ∈ fs) (hne : q ≠ p) : q ∈ removeIfPresent rm fs p := by
  unfold removeIfPresent
  split
  · exact mem_removeFile_of_ne hq hne
  · exact hq

theorem mem_cleanupFS_of_ne {rm : Str → Bool} {mode : Mode} {tR tD : Option Str}
    {fs : FS} {q : Str} (hq : q ∈ fs)
    (h1 : ∀ r, tR = some r → q ≠ r) (h2 : ∀ d, tD = some d → q ≠ d) :
    q ∈ cleanupFS rm mode tR tD fs := by
  unfold cleanupFS
  rcases tD with _ | d <;> rcases tR with _ | r <;> simp only
  · exact hq
  · exact mem_removeIfPresent_of_ne hq (h1 r rfl)
  · split
    · exact mem_removeIfPresent_of_ne hq (h2 d rfl)
    · exact hq
  · split
    · exact mem_removeIfPresent_of_ne (mem_removeIfPresent_of_ne hq (h1 r rfl)) (h2 d rfl)
    · exact mem_removeIfPresent_of_ne hq (h1 r rfl)

theorem runBody_renamed_false (cfg : Cfg) (env : Env) (i : Nat) (input : Str)
    (fs : FS) (tR tD : Option Str) :
    ∀ s t b2, Event.renamed s t b2 ∈ (runBody cfg env i input fs tR tD).events →
      b2 = false := by
  intro s t b2 hmem
  cases hm : cfg.mode <;> simp only [runBody, hm] at hmem <;> (repeat' split at hmem) <;>
    simp at hmem <;>
    (rcases hmem with ⟨h1, h2, h3⟩
     exact h3.trans (decide_eq_false (find_unique_not_mem _ _)))

theorem stepFile_renamed_false (cfg : Cfg) (env : Env) (rm : Str → Bool)
    (total i : Nat) (input : Str) (st : LoopSt)
    (hprev : ∀ s t b2, Event.renamed s t b2 ∈ st.events → b2 = false) :
    ∀ s t b2, Event.renamed s t b2 ∈ (stepFile cfg env rm total i input st).events →
      b2 = false := by
  intro s t b2 hmem
  rw [stepFile_events] at hmem
  rcases List.mem_append.mp hmem with h | h
  · exact hprev _ _ _ h
  · rcases List.mem_cons.mp h with heq | h2
    · cases heq
    · rcases List.mem_append.mp h2 with h3 | h3
      · rcases List.mem_append.mp h3 with h4 | h4
        · exact runBody_renamed_false cfg env i input st.fs st.tRecip st.tDec _ _ _ h4
        · rcases hr : (runBody cfg env i input st.fs st.tRecip st.tDec).result with e | v
            <;> rw [hr] at h4 <;> simp [errEventsOf] at h4
      · rcases List.mem_singleton.mp h3 with heq2
        cases heq2

theorem runAux_renamed_false (cfg : Cfg) (env : Env) (rm : Str → Bool) (total : Nat) :
    ∀ (l : List Str) (i : Nat) (st : LoopSt),
      (∀ s t b2, Event.renamed s t b2 ∈ st.events → b2 = false) →
      ∀ s t b2, Event.renamed s t b2 ∈ (runAux cfg env rm total i l st).events →
        b2 = false := by
  intro l
  induction l with
  | nil => intro i st hprev; exact hprev
  | cons f rest ih =>
    intro i st hprev
    rw [runAux_cons]
    exact ih (i + 1) _ (stepFile_renamed_false cfg env rm total i f st hprev)

theorem stepFile_preserves (cfg : Cfg) (env : Env) (rm : Str → Bool) (total i : Nat)
    (input : Str) (st : LoopSt) (p : Str)
    (hi : i < cfg.files.length) (hinput : cfg.files.getD i [] = input)
    (hp : p ∈ st.fs) (hpa : p ∉ artifactNames cfg env)
    (hR : optInArtifacts cfg env st.tRecip) (hD : optInArtifacts cfg env st.tDec) :
    p ∈ (stepFile cfg env rm total i input st).fs
    ∧ optInArtifacts cfg env (stepFile cfg env rm total i input st).tRecip
    ∧ optInArtifacts cfg env (stepFile cfg env rm total i input st).tDec := by
  have hinput_mem : input ∈ cfg.files := by
    rw [← hinput]
    exact getD_mem hi
  have htd_art : tDecPath env.pid input ∈ artifactNames cfg env :=
    tdec_mem_artifacts cfg env hinput_mem
  have hrec_art : recipPathFor env i input ∈ artifactNames cfg env := by
    rw [← hinput]
    exact recip_mem_artifacts cfg env hi
  have hRnew : optInArtifacts cfg env
      (runBody cfg env i input st.fs st.tRecip st.tDec).tRecip := by
    cases hm : cfg.mode
    · rw [runBody_tRecip_encrypt env i input st.fs st.tRecip st.tDec hm]
      split
      · exact hR
      · exact hrec_art
    · rw [runBody_tRecip_decrypt env i input st.fs st.tRecip st.tDec hm]
      exact hR
  have hDnew : optInArtifacts cfg env
      (runBody cfg env i input st.fs st.tRecip st.tDec).tDec := by
    cases hm : cfg.mode
    · rw [runBody_tDec_encrypt env i input st.fs st.tRecip st.tDec hm]
      exact hD
    · rw [runBody_tDec_decrypt env i input st.fs st.tRecip st.tDec hm]
      exact htd_art
  refine ⟨?_, ?_, ?_⟩
  · have hp2 : p ∈ (runBody cfg env i input st.fs st.tRecip st.tDec).fs :=
      runBody_fs_mono hp (fun heq => hpa (heq ▸ htd_art))
    rw [stepFile_fs]
    apply mem_cleanupFS_of_ne hp2
    · intro r hr heq
      have hOk := hRnew
      rw [hr] at hOk
      exact hpa (heq ▸ hOk)
    · intro d hd heq
      have hOk := hDnew
      rw [hd] at hOk
      exact hpa (heq ▸ hOk)
  · rw [stepFile_tRecip]
    exact hRnew
  · rw [stepFile_tDec]
    exact hDnew

theorem runAux_preserves (cfg : Cfg) (env : Env) (rm : Str → Bool) (total : Nat)
    (p : Str) (hpa : p ∉ artifactNames cfg env) :
    ∀ (l : List Str) (i : Nat) (st : LoopSt),
      cfg.files.drop i = l →
      p ∈ st.fs → optInArtifacts cfg env st.tRecip → optInArtifacts cfg env st.tDec →
      p ∈ (runAux cfg env rm total i l st).fs := by
  intro l
  induction l with
  | nil => intro i st _ hp _ _; exact hp
  | cons f rest ih =>
    intro i st hdrop hp hR hD
    have hi : i < cfg.files.length := by
      by_contra hge
      rw [List.drop_eq_nil_of_le (by omega)] at hdrop
      cases hdrop
    have hfi : cfg.files[i]? = some f := getElem?_of_drop_cons hdrop
    have hinput : cfg.files.getD i [] = f := getD_of_getElem? hfi
    have hdrop2 : cfg.files.drop (i + 1) = rest := by
      have hd := drop_eq_getD_cons hi (l := cfg.files)
      rw [hdrop, hinput] at hd
      exact (List.cons.inj hd.symm).2
    rw [runAux_cons]
    have hstep := stepFile_preserves cfg env rm total i f st p hi hinput hp hpa hR hD
    exact ih (i + 1) _ hdrop2 hstep.1 hstep.2.1 hstep.2.2

/-- C10 counterexample: the worker can delete a file that existed before
the batch began and that it never created: with a pre-existing file
whose name collides with the pid-tagged decrypt temp name, a failing
decrypt run (engine exits non-zero and writes nothing) removes that
pre-existing file in its cleanup block. -/
theorem C10_counterexample :
    ("x.temp_decrypted_7").data ∈ ([("x.age").data, ("x.temp_decrypted_7").data] : FS)
    ∧ ("x.temp_decrypted_7").data
        ∉ (runWorker ⟨.decrypt, [("x.age").data], [("k").data]⟩
            ⟨fun _ => .exits 1 [] false, fun _ => none, [], 7⟩ (fun _ => true)
            [("x.age").data, ("x.temp_decrypted_7").data]).fs := by
  refine ⟨by decide, by decide⟩

/-- C10 amended: provided no file present before the batch bears one of
the pid-tagged temporary names of this run (the per-index
recipient-list names and the per-input decrypt temp names), the
worker never deletes a pre-existing file: every pre-existing path is
still present when the run completes; and every rename recorded in
the trace targets the resolver result, which did not exist at the
moment of the rename. -/
theorem C10_frame (cfg : Cfg) (env : Env) (rm : Str → Bool) (fs0 : FS)
    (hfresh : ∀ p ∈ fs0, p ∉ artifactNames cfg env) :
    (∀ p ∈ fs0, p ∈ (runWorker cfg env rm fs0).fs)
    ∧ (∀ s t b2, Event.renamed s t b2 ∈ (runWorker cfg env rm fs0).events →
        b2 = false) := by
  constructor
  · intro p hp
    show p ∈ (runAux cfg env rm cfg.files.length 0 cfg.files
      ⟨fs0, none, none, 0, [], []⟩).fs
    exact runAux_preserves cfg env rm cfg.files.length p (hfresh p hp) cfg.files 0
      ⟨fs0, none, none, 0, [], []⟩ rfl hp trivial trivial
  · intro s t b2 hmem
    have hmem2 : Event.renamed s t b2
        ∈ (runAux cfg env rm cfg.files.length 0 cfg.files
            ⟨fs0, none, none, 0, [], []⟩).events
          ++ [.finished (runAux cfg env rm cfg.files.length 0 cfg.files
              ⟨fs0, none, none, 0, [], []⟩).succ cfg.files.length (cfg.mode = .encrypt)] :=
      hmem
    rcases List.mem_append.mp hmem2 with h | h
    · exact runAux_renamed_false cfg env rm cfg.files.length cfg.files 0
        ⟨fs0, none, none, 0, [], []⟩ (fun s2 t2 b3 hb3 => by cases hb3) s t b2 h
    · rcases List.mem_singleton.mp h with heq
      cases heq

/-- Witness for C10: a concrete decrypt run over a filesystem free of the
pid-tagged temp names preserves the pre-existing input file. -/
theorem C10_witness :
    ("x.age").data
      ∈ (runWorker ⟨.decrypt, [("x.age").data], [("k").data]⟩
          ⟨fun _ => .exits 1 [] false, fun _ => none, [], 7⟩ (fun _ => true)
          [("x.age").data, ("k").data]).fs := by
  exact (C10_frame ⟨.decrypt, [("x.age").data], [("k").data]⟩
      ⟨fun _ => .exits 1 [] false, fun _ => none, [], 7⟩ (fun _ => true)
      [("x.age").data, ("k").data] (by decide)).1 (("x.age").data) (by decide)


end AgeGui
